import Mathlib

/-!
A shallow embedding of the core string logic of the hgbb Mercurial
extension (hgbb.py): repository-path fragment parsing, repository-name
resolution, short-URL expansion, scheme dispatch and the clone-argument
rewriter.  Python strings are modelled as lists of characters, fallible
operations as Option/Except values.
-/

namespace Hgbb

/-- Python strings are modelled as lists of characters. -/
abbrev Str := List Char

/-- Python s.lstrip(c) for a single strip character. -/
def lstrip (c : Char) (s : Str) : Str := s.dropWhile (fun a => a == c)

/-- Python s.rstrip(c) for a single strip character. -/
def rstrip (c : Char) (s : Str) : Str := (s.reverse.dropWhile (fun a => a == c)).reverse

/-- Python s.strip(c): strips the character c from both ends. -/
def strip (c : Char) (s : Str) : Str := rstrip c (lstrip c s)

/-- Python s.split(c, 1) when c occurs in s: the part before the first c
and the part after it.  Returns none when c does not occur, where the
Python callers (which unpack the result into two variables) would raise
ValueError. -/
def splitFirst (c : Char) : Str → Option (Str × Str)
  | [] => none
  | a :: t =>
    if a = c then some ([], t)
    else
      match splitFirst c t with
      | some (pre, post) => some (a :: pre, post)
      | none => none

/-- Python s.split(c): split on every occurrence of c. -/
def splitAll (c : Char) : Str → List Str
  | [] => [[]]
  | a :: t =>
    if a = c then [] :: splitAll c t
    else
      match splitAll c t with
      | s :: r => (a :: s) :: r
      | [] => [[a]]

/-- Python os.path.split(p)[1]: the part of p after its last slash. -/
def basename (p : Str) : Str := (p.reverse.takeWhile (fun a => a != '/')).reverse

/-- Models urlparse.urlsplit as (scheme, netloc, path), for URLs with a
lowercase well-formed scheme and no query or fragment part: the scheme is
everything before the first colon; when "//" follows the colon, the netloc
runs up to the next slash and the path is the remainder. -/
def urlsplit (s : Str) : Str × Str × Str :=
  match splitFirst ':' s with
  | some (scheme, rest) =>
    if ['/', '/'] <+: rest then
      let r := rest.drop 2
      (scheme, r.takeWhile (fun a => a != '/'), r.dropWhile (fun a => a != '/'))
    else (scheme, [], rest)
  | none => ([], [], s)

/-- The literal "bitbucket.org". -/
def dmnBitbucket : Str := ['b', 'i', 't', 'b', 'u', 'c', 'k', 'e', 't', '.', 'o', 'r', 'g']

/-- hgbb.parse_repopath: extract a bitbucket repository path fragment from
a path string, or none when the path is not recognized.  The final branch
mirrors the Python expression path.split(":")[1]. -/
def parse_repopath (path : Str) : Option Str :=
  if [':', '/', '/'] <:+: path then
    -- http or ssh full path
    if dmnBitbucket <:+ (urlsplit path).2.1 then
      some (strip '/' (urlsplit path).2.2)
    -- bitbucket path in schemes style (bb://name/repo)
    else if ['b', 'b'] <+: (urlsplit path).1 then
      some (strip '/' ((urlsplit path).2.1 ++ (urlsplit path).2.2))
    else none
  -- bitbucket path in hgbb style (bb:name/repo)
  else if ['b', 'b', ':'] <+: path then
    some (path.drop 3)
  else if ['b', 'b', '+'] <+: path ∧ ':' ∈ path then
    some ((splitAll ':' path).getD 1 [])
  else none

/-- The (bb) section of the configuration: ui.config values for username,
password and default_method, each possibly unset. -/
structure Config where
  username : Option Str
  password : Option Str
  default_method : Option Str

/-- hgbb.get_username: the configured bb.username when set and non-empty
(Python truthiness), otherwise the OS login name from getpass.getuser(). -/
def get_username (cfg : Config) (osUser : Str) : Str :=
  match cfg.username with
  | some u => if u = [] then osUser else u
  | none => osUser

/-- The literal "default". -/
def cDefault : Str := ['d', 'e', 'f', 'a', 'u', 'l', 't']

/-- The literal "default-push". -/
def cDefaultPush : Str := ['d', 'e', 'f', 'a', 'u', 'l', 't', '-', 'p', 'u', 's', 'h']

/-- The scanning loop of hgbb.get_bbreponame over ui.configitems("paths"):
the loop breaks at the first entry named "default" or "default-push" whose
parse_repopath result is truthy (non-None and non-empty); none models the
for-else branch, reached when the loop never breaks.  (The Python loop
variable also holds the last failed extraction, but the else branch
overwrites it, so that state is dead and not carried here.) -/
def scanDefault : List (Str × Str) → Option Str
  | [] => none
  | (name, path) :: rest =>
    if name = cDefault ∨ name = cDefaultPush then
      match parse_repopath path with
      | some r => if r = [] then scanDefault rest else some r
      | none => scanDefault rest
    else scanDefault rest

/-- The fragment-selection half of hgbb.get_bbreponame (lines up to the
slash check): the explicitly given reponame when truthy, else the first
successful extraction from the configured paths, else the basename of
repo.root.  The Bool is the "constructed" flag at that point. -/
def bbFragment (paths : List (Str × Str)) (root : Str) (opt : Option Str) : Str × Bool :=
  match opt with
  | some r => if r = [] then ((scanDefault paths).getD (basename root), true) else (r, false)
  | none => ((scanDefault paths).getD (basename root), true)

/-- hgbb.get_bbreponame: resolves the repository name; the Bool records
whether the "using %r as repo name" notice is emitted (the constructed
flag). -/
def get_bbreponame (cfg : Config) (osUser : Str) (paths : List (Str × Str))
    (root : Str) (opt : Option Str) : Str × Bool :=
  let fr := bbFragment paths root opt
  if '/' ∈ fr.1 then fr else (get_username cfg osUser ++ '/' :: fr.1, true)

/-- The auth fragment of bbrepo.instance: "username:password@" when a
password is configured (even an empty one: the Python test is
"is not None"), else "username@". -/
def authFragment (username : Str) (password : Option Str) : Str :=
  match password with
  | some pw => username ++ ':' :: pw ++ ['@']
  | none => username ++ ['@']

/-- The path normalization of bbrepo.instance: strip slashes from both
ends, then prepend "username/" when no slash remains. -/
def instancePath (username p : Str) : Str :=
  let p1 := strip '/' p
  if '/' ∈ p1 then p1 else username ++ '/' :: p1

/-- The two transport factories passed to the bbrepo constructors:
httprepo_instance and sshrepo_instance. -/
inductive Factory where
  | http
  | ssh
deriving DecidableEq

/-- A bbrepo object: a factory together with its URL template string. -/
structure BBRepo where
  factory : Factory
  url : Str
deriving DecidableEq

/-- The call a bbrepo.instance invocation makes on its factory:
factory(ui, url, create), with the ui argument elided. -/
structure RepoCall where
  factory : Factory
  url : Str
  create : Bool
deriving DecidableEq

/-- The literal "%(auth)s". -/
def keyAuth : Str := ['%', '(', 'a', 'u', 't', 'h', ')', 's']

/-- The literal "%(path)s". -/
def keyPath : Str := ['%', '(', 'p', 'a', 't', 'h', ')', 's']

/-- Python percent-formatting self.url % dict(path=..., auth=...),
restricted to the two keys the templates of this extension use: each
occurrence of "%(auth)s" is replaced by auth and each occurrence of
"%(path)s" by path. -/
def render (auth path : Str) : Str → Str
  | '%' :: '(' :: 'a' :: 'u' :: 't' :: 'h' :: ')' :: 's' :: rest => auth ++ render auth path rest
  | '%' :: '(' :: 'p' :: 'a' :: 't' :: 'h' :: ')' :: 's' :: rest => path ++ render auth path rest
  | a :: rest => a :: render auth path rest
  | [] => []

/-- The template "https://%(auth)sbitbucket.org/%(path)s" used for both
the bb+http and the bb+https registrations. -/
def https_tmpl : Str :=
  ['h', 't', 't', 'p', 's', ':', '/', '/'] ++ keyAuth ++ dmnBitbucket ++ '/' :: keyPath

/-- The template "ssh://hg@bitbucket.org/%(path)s" used for the bb+ssh
registration; note that it does not mention the auth key. -/
def ssh_tmpl : Str :=
  ['s', 's', 'h', ':', '/', '/', 'h', 'g', '@'] ++ dmnBitbucket ++ '/' :: keyPath

/-- hgbb.bbrepo.instance: split the url at the first colon (none models
the ValueError Python would raise without a colon), normalize the path,
compose the auth fragment, and call the factory on the rendered template
with path set to path.rstrip("/") + "/". -/
def bbrepo_instance (self : BBRepo) (cfg : Config) (osUser : Str)
    (url : Str) (create : Bool) : Option RepoCall :=
  match splitFirst ':' url with
  | none => none
  | some (_, path0) =>
    let username := get_username cfg osUser
    let path := instancePath username path0
    let auth := authFragment username cfg.password
    some ⟨self.factory, render auth (rstrip '/' path ++ ['/']) self.url, create⟩

/-- The literal "bb+http". -/
def kBBhttp : Str := ['b', 'b', '+', 'h', 't', 't', 'p']

/-- The literal "bb+https". -/
def kBBhttps : Str := ['b', 'b', '+', 'h', 't', 't', 'p', 's']

/-- The literal "bb+ssh". -/
def kBBssh : Str := ['b', 'b', '+', 's', 's', 'h']

/-- The hg.schemes registrations of the three explicit-method handlers:
bb+http and bb+https are each registered as bbrepo(httprepo_instance,
"https://%(auth)sbitbucket.org/%(path)s"), and bb+ssh as
bbrepo(sshrepo_instance, "ssh://hg@bitbucket.org/%(path)s"). -/
def bbschemes (key : Str) : Option BBRepo :=
  if key = kBBhttp then some ⟨Factory.http, https_tmpl⟩
  else if key = kBBhttps then some ⟨Factory.http, https_tmpl⟩
  else if key = kBBssh then some ⟨Factory.ssh, ssh_tmpl⟩
  else none

/-- The literal "ssh". -/
def cSSH : Str := ['s', 's', 'h']

/-- The literal "http". -/
def cHTTP : Str := ['h', 't', 't', 'p']

/-- The literal "https". -/
def cHTTPS : Str := ['h', 't', 't', 'p', 's']

/-- The literal "Invalid config value for bb.default_method: ". -/
def errInvalidMethod : Str :=
  ['I', 'n', 'v', 'a', 'l', 'i', 'd', ' ', 'c', 'o', 'n', 'f', 'i', 'g', ' ',
   'v', 'a', 'l', 'u', 'e', ' ', 'f', 'o', 'r', ' ', 'b', 'b', '.',
   'd', 'e', 'f', 'a', 'u', 'l', 't', '_', 'm', 'e', 't', 'h', 'o', 'd', ':', ' ']

/-- Decidable equality of Except results, so that concrete dispatch
outcomes can be checked by evaluation. -/
instance {ε α : Type} [DecidableEq ε] [DecidableEq α] : DecidableEq (Except ε α) := fun a b =>
  match a, b with
  | Except.ok x, Except.ok y =>
    if h : x = y then isTrue (by rw [h]) else isFalse (fun hc => h (Except.ok.inj hc))
  | Except.error x, Except.error y =>
    if h : x = y then isTrue (by rw [h]) else isFalse (fun hc => h (Except.error.inj hc))
  | Except.ok _, Except.error _ => isFalse (fun hc => Except.noConfusion hc)
  | Except.error _, Except.ok _ => isFalse (fun hc => Except.noConfusion hc)

/-- hgbb.auto_bbrepo.instance: read bb.default_method (default "https"),
abort on a value outside ssh/http/https, upgrade http to https, and
dispatch to hg.schemes["bb+" + method].instance(ui, url, create).  The ok
value reifies that dynamic dispatch as (scheme key, url, create); the
error value is the util.Abort message. -/
def auto_instance (cfg : Config) (url : Str) (create : Bool) :
    Except Str (Str × Str × Bool) :=
  let method := cfg.default_method.getD cHTTPS
  if method = cSSH ∨ method = cHTTP ∨ method = cHTTPS then
    let m := if method = cHTTP then cHTTPS else method
    Except.ok (['b', 'b', '+'] ++ m, url, create)
  else Except.error (errInvalidMethod ++ method)

/-- The source rewrite of the hgbb.clone wrapper: when the first two
characters are "bb" and a colon is present, split at the first colon and,
unless the remainder already starts with "//", rebuild the source as
protocol + "://" + remainder. -/
def clone_source (source : Str) : Str :=
  if source.take 2 = ['b', 'b'] ∧ ':' ∈ source then
    match splitFirst ':' source with
    | some (protocol, rest) =>
      if rest.take 2 ≠ ['/', '/'] then protocol ++ [':', '/', '/'] ++ rest else source
    | none => source
  else source

/-- hgbb.clone: the wrapper transforms only the source argument and
passes dest (and all remaining arguments) through unchanged to the
wrapped clone command. -/
def clone (source : Str) (dest : Option Str) : Str × Option Str :=
  (clone_source source, dest)

/-! ## Helper lemmas about the string primitives -/

theorem splitFirst_append (c : Char) (pre post : Str) (h : c ∉ pre) :
    splitFirst c (pre ++ c :: post) = some (pre, post) := by
  induction pre with
  | nil => simp [splitFirst]
  | cons a t ih =>
    have ha : ¬ a = c := fun hh => h (hh ▸ List.mem_cons_self a t)
    have ht : c ∉ t := fun hm => h (List.mem_cons_of_mem a hm)
    simp [splitFirst, ha, ih ht]

theorem lstrip_cons_of_ne (c a : Char) (t : Str) (h : a ≠ c) : lstrip c (a :: t) = a :: t := by
  simp [lstrip, List.dropWhile_cons, h]

theorem rstrip_concat_of_ne (c a : Char) (t : Str) (h : a ≠ c) :
    rstrip c (t ++ [a]) = t ++ [a] := by
  simp [rstrip, List.dropWhile_cons, h]

theorem rstrip_concat_self (c : Char) (t : Str) : rstrip c (t ++ [c]) = rstrip c t := by
  simp [rstrip, List.dropWhile_cons]

theorem rstrip_eq_self (c : Char) (s : Str) (h : s.getLast? ≠ some c) : rstrip c s = s := by
  rcases List.eq_nil_or_concat' s with rfl | ⟨t, a, rfl⟩
  · rfl
  · refine rstrip_concat_of_ne c a t fun hc => h ?_
    rw [hc, List.getLast?_concat]

theorem head?_dropWhile (p : Char → Bool) (l : Str) (a : Char)
    (h : (l.dropWhile p).head? = some a) : p a = false := by
  induction l with
  | nil => simp [List.dropWhile] at h
  | cons b t ih =>
    rw [List.dropWhile_cons] at h
    by_cases hb : p b = true
    · rw [if_pos hb] at h
      exact ih h
    · rw [if_neg hb] at h
      have hba : b = a := by simpa using h
      simpa [hba] using hb

theorem getLast?_rstrip (c : Char) (s : Str) : (rstrip c s).getLast? ≠ some c := by
  intro h
  rw [rstrip, List.getLast?_reverse] at h
  have := head?_dropWhile _ _ _ h
  simp at this

theorem splitAll_first (c : Char) (l : Str) :
    ∃ r, splitAll c l = l.takeWhile (fun a => a != c) :: r := by
  induction l with
  | nil => exact ⟨[], rfl⟩
  | cons a t ih =>
    by_cases h : a = c
    · subst h
      exact ⟨splitAll a t, by simp [splitAll, List.takeWhile_cons]⟩
    · obtain ⟨r, hr⟩ := ih
      exact ⟨r, by simp [splitAll, hr, List.takeWhile_cons, h]⟩

theorem splitAll_append (c : Char) (pre post : Str) (h : c ∉ pre) :
    splitAll c (pre ++ c :: post) = pre :: splitAll c post := by
  induction pre with
  | nil => simp [splitAll]
  | cons a t ih =>
    have ha : ¬ a = c := fun hh => h (hh ▸ List.mem_cons_self a t)
    have ht : c ∉ t := fun hm => h (List.mem_cons_of_mem a hm)
    simp [splitAll, ha, ih ht]

theorem render_https (auth p : Str) :
    render auth p https_tmpl
      = ['h', 't', 't', 'p', 's', ':', '/', '/'] ++ auth ++ dmnBitbucket ++ '/' :: p := by
  have h : render auth p https_tmpl
      = ['h', 't', 't', 'p', 's', ':', '/', '/'] ++ (auth ++ (dmnBitbucket ++ '/' :: (p ++ []))) :=
    rfl
  simp [h]

theorem render_ssh (auth p : Str) :
    render auth p ssh_tmpl
      = ['s', 's', 'h', ':', '/', '/', 'h', 'g', '@'] ++ dmnBitbucket ++ '/' :: p := by
  have h : render auth p ssh_tmpl
      = ['s', 's', 'h', ':', '/', '/', 'h', 'g', '@'] ++ (dmnBitbucket ++ '/' :: (p ++ [])) :=
    rfl
  simp [h]

theorem no_http_of_https (z : Str) :
    ¬ ['h', 't', 't', 'p', ':', '/', '/'] <+: (['h', 't', 't', 'p', 's', ':', '/', '/'] ++ z) := by
  intro hc
  obtain ⟨t, ht⟩ := hc
  have h5 : (['h', 't', 't', 'p', ':'] : Str) = ['h', 't', 't', 'p', 's'] :=
    congrArg (List.take 5) ht
  exact absurd h5 (by decide)

theorem no_http_of_ssh (z : Str) :
    ¬ ['h', 't', 't', 'p', ':', '/', '/'] <+:
      (['s', 's', 'h', ':', '/', '/', 'h', 'g', '@'] ++ z) := by
  intro hc
  obtain ⟨t, ht⟩ := hc
  have h1 : (['h'] : Str) = ['s'] := congrArg (List.take 1) ht
  exact absurd h1 (by decide)

theorem strip_canon (o n : Str) (ho : o ≠ []) (ho2 : '/' ∉ o) (hn : n ≠ []) (hn2 : '/' ∉ n) :
    strip '/' (o ++ '/' :: n ++ ['/']) = o ++ '/' :: n := by
  obtain ⟨a, o2, rfl⟩ : ∃ a o2, o = a :: o2 := by
    rcases o with _ | ⟨a, o2⟩
    · exact absurd rfl ho
    · exact ⟨a, o2, rfl⟩
  have ha : a ≠ '/' := fun hh => ho2 (hh ▸ List.mem_cons_self a o2)
  rw [strip, show (a :: o2) ++ '/' :: n ++ ['/'] = a :: (o2 ++ '/' :: n ++ ['/']) from rfl,
    lstrip_cons_of_ne _ _ _ ha,
    show a :: (o2 ++ '/' :: n ++ ['/']) = ((a :: o2) ++ '/' :: n) ++ ['/'] by simp,
    rstrip_concat_self]
  apply rstrip_eq_self
  obtain ⟨t, b, rfl⟩ : ∃ t b, n = t ++ [b] := by
    rcases List.eq_nil_or_concat' n with rfl | ⟨t, b, rfl⟩
    · exact absurd rfl hn
    · exact ⟨t, b, rfl⟩
  have hb : b ≠ '/' := fun hh => hn2 (hh ▸ List.mem_concat_self t b)
  rw [show (a :: o2) ++ '/' :: (t ++ [b]) = ((a :: o2) ++ '/' :: t) ++ [b] by simp,
    List.getLast?_concat]
  simp [hb]

/-- A successful bbrepo_instance call always produces a URL that is the
template rendered with the auth fragment and some path value. -/
theorem instance_some_url (fa : Factory) (tmpl : Str) (cfg : Config) (osUser url : Str)
    (create : Bool) (c : RepoCall)
    (hc : bbrepo_instance ⟨fa, tmpl⟩ cfg osUser url create = some c) :
    ∃ p, c.url = render (authFragment (get_username cfg osUser) cfg.password) p tmpl := by
  rcases hsplit : splitFirst ':' url with _ | ⟨s0, p0⟩
  · simp [bbrepo_instance, hsplit] at hc
  · simp only [bbrepo_instance, hsplit] at hc
    obtain rfl := Option.some.inj hc
    exact ⟨_, rfl⟩

/-! ## The claims -/

/-- Claim C1: identity-resolution source selection follows a fixed
priority: a non-empty explicit reponame is used as the starting fragment;
otherwise the configured remotes are scanned in order and the first entry
named "default" or "default-push" whose path yields a non-empty extraction
supplies the fragment, entries with failed extraction being skipped; if no
remote yields a fragment, the basename of the repository root is used. -/
theorem claim1_resolution_priority (paths : List (Str × Str)) (root : Str) (opt : Option Str) :
    (∀ r, opt = some r → r ≠ [] → bbFragment paths root opt = (r, false))
    ∧ ((opt = none ∨ opt = some []) →
        (bbFragment paths root opt).1 = (scanDefault paths).getD (basename root))
    ∧ (∀ name path rest, (name = cDefault ∨ name = cDefaultPush) →
        (parse_repopath path = none ∨ parse_repopath path = some []) →
        scanDefault ((name, path) :: rest) = scanDefault rest)
    ∧ (∀ name path rest r, (name = cDefault ∨ name = cDefaultPush) →
        parse_repopath path = some r → r ≠ [] →
        scanDefault ((name, path) :: rest) = some r)
    ∧ (∀ name path rest, ¬ (name = cDefault ∨ name = cDefaultPush) →
        scanDefault ((name, path) :: rest) = scanDefault rest)
    ∧ (scanDefault paths = none → (opt = none ∨ opt = some []) →
        (bbFragment paths root opt).1 = basename root) := by
  refine ⟨?_, ?_, ?_, ?_, ?_, ?_⟩
  · rintro r rfl hr
    simp [bbFragment, hr]
  · rintro (rfl | rfl) <;> simp [bbFragment]
  · rintro name path rest hname (hp | hp) <;>
      (simp only [scanDefault, if_pos hname, hp]; try rfl)
  · intro name path rest r hname hp hr
    simp only [scanDefault, if_pos hname, hp, if_neg hr]
  · intro name path rest hname
    simp only [scanDefault, if_neg hname]
  · rintro hnone (rfl | rfl) <;> simp [bbFragment, hnone]

/-- Witness for C1: a concrete default entry with a successful extraction
stops the scan with that fragment. -/
theorem claim1_resolution_priority_witness :
    scanDefault [(cDefault, ['b', 'b', ':', 't'])] = some ['t'] :=
  (claim1_resolution_priority [] [] none).2.2.2.1 cDefault ['b', 'b', ':', 't'] [] ['t']
    (Or.inl rfl) (by decide) (by decide)

/-- Claim C3: auto transport selection reads the method from the
configuration with default https, rejects any value outside ssh/http/https
with the invalid-configuration error before any dispatch, upgrades http to
https, and dispatches to the registered bb+method handler with the
untouched original URL and the caller's create flag. -/
theorem claim3_auto_dispatch (cfg : Config) (url : Str) (create : Bool) :
    (cfg.default_method = none →
        auto_instance cfg url create = Except.ok (kBBhttps, url, create)
        ∧ (bbschemes kBBhttps).isSome = true)
    ∧ (cfg.default_method = some cSSH →
        auto_instance cfg url create = Except.ok (kBBssh, url, create)
        ∧ (bbschemes kBBssh).isSome = true)
    ∧ (cfg.default_method = some cHTTP →
        auto_instance cfg url create = Except.ok (kBBhttps, url, create))
    ∧ (cfg.default_method = some cHTTPS →
        auto_instance cfg url create = Except.ok (kBBhttps, url, create))
    ∧ (∀ m, cfg.default_method = some m → m ≠ cSSH → m ≠ cHTTP → m ≠ cHTTPS →
        auto_instance cfg url create = Except.error (errInvalidMethod ++ m)) := by
  refine ⟨?_, ?_, ?_, ?_, ?_⟩
  · intro h
    refine ⟨?_, by decide⟩
    unfold auto_instance
    rw [h]
    rfl
  · intro h
    refine ⟨?_, by decide⟩
    unfold auto_instance
    rw [h]
    rfl
  · intro h
    unfold auto_instance
    rw [h]
    rfl
  · intro h
    unfold auto_instance
    rw [h]
    rfl
  · intro m h h1 h2 h3
    unfold auto_instance
    rw [h, show (some m).getD cHTTPS = m from rfl, if_neg]
    rintro (hc | hc | hc)
    · exact h1 hc
    · exact h2 hc
    · exact h3 hc

/-- Witness for C3: with default_method equal to ssh, the dispatch goes to
the registered bb+ssh handler with the original URL and create = false. -/
theorem claim3_auto_dispatch_witness :
    auto_instance ⟨none, none, some cSSH⟩ ['t'] false = Except.ok (kBBssh, ['t'], false)
    ∧ (bbschemes kBBssh).isSome = true :=
  (claim3_auto_dispatch ⟨none, none, some cSSH⟩ ['t'] false).2.1 rfl

/-- Claim C4: a fragment with no slash resolves to username/fragment; a
fragment of the form owner/name resolves to exactly itself, splitting at
the first slash into (owner, name); and the URL builder prepends
username/ exactly when the normalized path contains no slash. -/
theorem claim4_owner_prepend (cfg : Config) (osUser : Str) (paths : List (Str × Str))
    (root : Str) :
    (∀ u f, get_username cfg osUser = u → f ≠ [] → '/' ∉ f →
        (get_bbreponame cfg osUser paths root (some f)).1 = u ++ '/' :: f)
    ∧ (∀ o n, '/' ∉ o →
        (get_bbreponame cfg osUser paths root (some (o ++ '/' :: n))).1 = o ++ '/' :: n
          ∧ splitFirst '/' (o ++ '/' :: n) = some (o, n))
    ∧ (∀ u p, '/' ∉ strip '/' p → instancePath u p = u ++ '/' :: strip '/' p) := by
  refine ⟨?_, ?_, ?_⟩
  · rintro u f rfl hf hslash
    simp [get_bbreponame, bbFragment, hf, hslash]
  · intro o n ho
    have hmem : '/' ∈ o ++ '/' :: n := List.mem_append_right _ (List.mem_cons_self _ _)
    have hne : o ++ '/' :: n ≠ [] := by simp
    refine ⟨?_, splitFirst_append _ _ _ ho⟩
    simp [get_bbreponame, bbFragment, hne, hmem]
  · intro u p hp
    simp [instancePath, hp]

/-- Witness for C4: the slash-free fragment f with username u resolves to
u/f. -/
theorem claim4_owner_prepend_witness :
    (get_bbreponame ⟨some ['u'], none, none⟩ [] [] [] (some ['f'])).1 = ['u'] ++ '/' :: ['f'] :=
  (claim4_owner_prepend ⟨some ['u'], none, none⟩ [] [] []).1 ['u'] ['f'] (by decide)
    (by decide) (by decide)

/-- Counterexample for C5: a fragment extracted from a configured default
remote already contains an explicit owner ("o/r"), yet the notice is
emitted (the constructed flag is true), contradicting the claim that the
notice appears exactly when the owner was not explicitly present in the
fragment. -/
theorem claim5_notice_counterexample :
    get_bbreponame ⟨none, none, none⟩ ['u'] [(cDefault, ['b', 'b', ':', 'o', '/', 'r'])]
        ['d'] none
      = (['o', '/', 'r'], true) := by decide

/-- Claim C5 as amended: the notice is emitted exactly when the explicit
reponame option was absent or empty, or when the selected fragment
contains no slash (so the owner is filled in from the username); in
particular a fragment extracted from a configured remote triggers the
notice even when it already contains an explicit owner, and only a
caller-supplied owner/name fragment suppresses it. -/
theorem claim5_notice_amended (cfg : Config) (osUser : Str) (paths : List (Str × Str))
    (root : Str) (opt : Option Str) :
    (get_bbreponame cfg osUser paths root opt).2 = true ↔
      ((∀ r, opt = some r → r = []) ∨ '/' ∉ (bbFragment paths root opt).1) := by
  rcases opt with _ | r
  · refine iff_of_true ?_ (Or.inl fun r h => nomatch h)
    simp only [get_bbreponame, bbFragment]
    split <;> rfl
  · by_cases hr : r = []
    · subst hr
      refine iff_of_true ?_ (Or.inl fun r h => (Option.some.inj h).symm)
      have hfr : bbFragment paths root (some [])
          = ((scanDefault paths).getD (basename root), true) := by simp [bbFragment]
      simp only [get_bbreponame, hfr]
      split <;> rfl
    · by_cases hmem : '/' ∈ r
      · simp [get_bbreponame, bbFragment, hr, hmem]
      · simp [get_bbreponame, bbFragment, hr, hmem]

/-- Witness for C5 as amended: with no explicit reponame the notice is
emitted. -/
theorem claim5_notice_amended_witness :
    (get_bbreponame ⟨none, none, none⟩ ['u'] [] ['d'] none).2 = true :=
  (claim5_notice_amended ⟨none, none, none⟩ ['u'] [] ['d'] none).mpr
    (Or.inl fun _ h => nomatch h)

/-- Counterexample for C6: on "bb+x:a:b" (a tag-plus path containing a
colon but no "://", with a second colon after the first) the parser
returns "a", the segment between the first and second colon, not "a:b",
everything after the first colon. -/
theorem claim6_plus_colon_counterexample :
    parse_repopath ['b', 'b', '+', 'x', ':', 'a', ':', 'b'] = some ['a']
    ∧ parse_repopath ['b', 'b', '+', 'x', ':', 'a', ':', 'b'] ≠ some ['a', ':', 'b'] := by
  decide

/-- Claim C6 as amended: for every path starting with "bb+" that contains
a colon but no "://", the parser returns the text after the first colon up
to (but excluding) the next colon, or to the end when there is no second
colon. -/
theorem claim6_plus_colon_amended (pre post : Str)
    (h1 : ['b', 'b', '+'] <+: (pre ++ ':' :: post)) (h2 : ':' ∉ pre)
    (h3 : ¬ [':', '/', '/'] <:+: (pre ++ ':' :: post)) :
    parse_repopath (pre ++ ':' :: post)
      = some (post.takeWhile (fun a => a != ':')) := by
  have hcolon : ':' ∈ pre ++ ':' :: post := List.mem_append_right _ (List.mem_cons_self _ _)
  have hbbc : ¬ ['b', 'b', ':'] <+: (pre ++ ':' :: post) := by
    obtain ⟨t, ht⟩ := h1
    intro hc
    obtain ⟨t2, ht2⟩ := hc
    have h3' : (['b', 'b', ':'] : Str) = ['b', 'b', '+'] :=
      congrArg (List.take 3) (ht2.trans ht.symm)
    exact absurd h3' (by decide)
  simp only [parse_repopath, if_neg h3, if_neg hbbc, if_pos (And.intro h1 hcolon)]
  rw [splitAll_append _ _ _ h2]
  obtain ⟨r, hr⟩ := splitAll_first ':' post
  rw [hr]
  rfl

/-- Witness for C6 as amended: on "bb+x:a:b" the amended rule gives the
segment "a". -/
theorem claim6_plus_colon_amended_witness :
    parse_repopath (['b', 'b', '+', 'x'] ++ ':' :: ['a', ':', 'b'])
      = some (['a', ':', 'b'].takeWhile (fun a => a != ':')) :=
  claim6_plus_colon_amended ['b', 'b', '+', 'x'] ['a', ':', 'b'] (by decide) (by decide)
    (by decide)

/-- Claim C7: the parser returns the/repo for the full bitbucket http URL,
test for bb:test and for bb+something:test, and none for bbfoo, bb+foo and
some/name; in general a string without "://", without the "bb:" short
form, and without a "bb+" form containing a colon never matches. -/
theorem claim7_parse_cases :
    parse_repopath ['h', 't', 't', 'p', ':', '/', '/', 'b', 'i', 't', 'b', 'u', 'c', 'k',
        'e', 't', '.', 'o', 'r', 'g', '/', 't', 'h', 'e', '/', 'r', 'e', 'p', 'o']
      = some ['t', 'h', 'e', '/', 'r', 'e', 'p', 'o']
    ∧ parse_repopath ['b', 'b', ':', 't', 'e', 's', 't'] = some ['t', 'e', 's', 't']
    ∧ parse_repopath ['b', 'b', '+', 's', 'o', 'm', 'e', 't', 'h', 'i', 'n', 'g', ':',
        't', 'e', 's', 't'] = some ['t', 'e', 's', 't']
    ∧ parse_repopath ['b', 'b', 'f', 'o', 'o'] = none
    ∧ parse_repopath ['b', 'b', '+', 'f', 'o', 'o'] = none
    ∧ parse_repopath ['s', 'o', 'm', 'e', '/', 'n', 'a', 'm', 'e'] = none
    ∧ (∀ path, ¬ [':', '/', '/'] <:+: path → ¬ ['b', 'b', ':'] <+: path →
        ¬ (['b', 'b', '+'] <+: path ∧ ':' ∈ path) → parse_repopath path = none) := by
  refine ⟨by decide, by decide, by decide, by decide, by decide, by decide, ?_⟩
  intro path hin hbbc hbbp
  simp only [parse_repopath, if_neg hin, if_neg hbbc, if_neg hbbp]

/-- Witness for C7: a fresh string merely starting with the tag, with no
colon in the required position, never matches. -/
theorem claim7_parse_cases_witness :
    parse_repopath ['b', 'b', 'q', 'x'] = none :=
  claim7_parse_cases.2.2.2.2.2.2 ['b', 'b', 'q', 'x'] (by decide) (by decide) (by decide)

/-- Claim C8: the clone-argument rewriter maps a bare tag:rest source
lacking "://" to tag://rest, rewrites only when the first two characters
are the tag and a colon is present, never double-rewrites a source whose
first colon is already followed by "//", leaves every other source
unchanged, and passes the remaining clone arguments through untouched. -/
theorem claim8_clone_rewrite :
    (∀ rest, ¬ [':', '/', '/'] <:+: (['b', 'b', ':'] ++ rest) →
        clone_source (['b', 'b', ':'] ++ rest) = ['b', 'b', ':', '/', '/'] ++ rest)
    ∧ clone_source ['b', 'b', ':', 't', 'e', 's', 't']
        = ['b', 'b', ':', '/', '/', 't', 'e', 's', 't']
    ∧ clone_source ['b', 'b', ':', '/', '/', 't', 'e', 's', 't']
        = ['b', 'b', ':', '/', '/', 't', 'e', 's', 't']
    ∧ (∀ s, s.take 2 ≠ ['b', 'b'] → clone_source s = s)
    ∧ (∀ s, ':' ∉ s → clone_source s = s)
    ∧ (∀ pre rest, ':' ∉ pre →
        clone_source (pre ++ ':' :: '/' :: '/' :: rest) = pre ++ ':' :: '/' :: '/' :: rest)
    ∧ (∀ s d, clone s d = (clone_source s, d)) := by
  refine ⟨?_, by decide, by decide, ?_, ?_, ?_, fun s d => rfl⟩
  · intro rest h
    have hcond : (['b', 'b', ':'] ++ rest).take 2 = ['b', 'b']
        ∧ ':' ∈ (['b', 'b', ':'] ++ rest) :=
      ⟨rfl, List.mem_append_left _ (by decide)⟩
    have hsp : splitFirst ':' (['b', 'b', ':'] ++ rest) = some (['b', 'b'], rest) := rfl
    have hr : rest.take 2 ≠ ['/', '/'] := by
      intro hc
      apply h
      rcases rest with _ | ⟨a, _ | ⟨b, t⟩⟩
      · simp at hc
      · simp [List.take] at hc
      · simp [List.take] at hc
        obtain ⟨rfl, rfl⟩ := hc
        exact ⟨['b', 'b'], t, rfl⟩
    simp only [clone_source, if_pos hcond, hsp, if_pos hr]
    rfl
  · intro s hs
    have : ¬ (s.take 2 = ['b', 'b'] ∧ ':' ∈ s) := fun hc => hs hc.1
    simp only [clone_source, if_neg this]
  · intro s hs
    have : ¬ (s.take 2 = ['b', 'b'] ∧ ':' ∈ s) := fun hc => hs hc.2
    simp only [clone_source, if_neg this]
  · intro pre rest hp
    have hsp : splitFirst ':' (pre ++ ':' :: '/' :: '/' :: rest)
        = some (pre, '/' :: '/' :: rest) := splitFirst_append _ _ _ hp
    by_cases hc : (pre ++ ':' :: '/' :: '/' :: rest).take 2 = ['b', 'b']
        ∧ ':' ∈ (pre ++ ':' :: '/' :: '/' :: rest)
    · simp only [clone_source, if_pos hc, hsp]
      rw [if_neg]
      simp [List.take]
    · simp only [clone_source, if_neg hc]

/-- Witness for C8: the rewriter maps the concrete bb:z to bb://z. -/
theorem claim8_clone_rewrite_witness :
    clone_source (['b', 'b', ':'] ++ ['z']) = ['b', 'b', ':', '/', '/'] ++ ['z'] :=
  claim8_clone_rewrite.1 ['z'] (by decide)

/-- Claim C2: for the https URL builder, with a configured password the
auth fragment is exactly username:password@ and without one exactly
username@, and the composed URL is exactly
scheme://auth-fragment service-domain/path/ with exactly one trailing
slash appended after the path, for every input path (including paths
already ending in a slash, since p below never ends in one). -/
theorem claim2_url_composition (cfg : Config) (osUser scheme rest : Str) (create : Bool)
    (h : ':' ∉ scheme) :
    ∃ p, p.getLast? ≠ some '/'
      ∧ bbrepo_instance ⟨Factory.http, https_tmpl⟩ cfg osUser (scheme ++ ':' :: rest) create
        = some ⟨Factory.http,
            ['h', 't', 't', 'p', 's', ':', '/', '/']
              ++ (match cfg.password with
                  | some pw => get_username cfg osUser ++ ':' :: pw ++ ['@']
                  | none => get_username cfg osUser ++ ['@'])
              ++ dmnBitbucket ++ '/' :: (p ++ ['/']), create⟩ := by
  refine ⟨rstrip '/' (instancePath (get_username cfg osUser) rest), getLast?_rstrip _ _, ?_⟩
  simp only [bbrepo_instance, splitFirst_append ':' scheme rest h]
  rw [render_https]
  cases hpw : cfg.password with
  | none => simp only [hpw, authFragment]
  | some pw => simp only [hpw, authFragment]

/-- Witness for C2 at a concrete configuration with a password. -/
theorem claim2_url_composition_witness :
    ':' ∉ (['b', 'b'] : Str)
    ∧ ∃ p, p.getLast? ≠ some '/'
      ∧ bbrepo_instance ⟨Factory.http, https_tmpl⟩ ⟨some ['u'], some ['p', 'w'], none⟩ []
          (['b', 'b'] ++ ':' :: ['x']) false
        = some ⟨Factory.http,
            ['h', 't', 't', 'p', 's', ':', '/', '/']
              ++ (match (⟨some ['u'], some ['p', 'w'], none⟩ : Config).password with
                  | some pw =>
                    get_username ⟨some ['u'], some ['p', 'w'], none⟩ [] ++ ':' :: pw ++ ['@']
                  | none => get_username ⟨some ['u'], some ['p', 'w'], none⟩ [] ++ ['@'])
              ++ dmnBitbucket ++ '/' :: (p ++ ['/']), false⟩ :=
  ⟨by decide,
    claim2_url_composition ⟨some ['u'], some ['p', 'w'], none⟩ [] ['b', 'b'] ['x'] false
      (by decide)⟩

/-- Claim C9: URL building is idempotent on the path portion: feeding an
already-canonical owner/name/ path back through the builder reconstructs
the identical owner/name/ path segment in the composed URL. -/
theorem claim9_idempotent_path (cfg : Config) (osUser scheme owner name : Str) (create : Bool)
    (hs : ':' ∉ scheme) (ho : owner ≠ []) (ho2 : '/' ∉ owner)
    (hn : name ≠ []) (hn2 : '/' ∉ name) :
    bbrepo_instance ⟨Factory.http, https_tmpl⟩ cfg osUser
        (scheme ++ ':' :: (owner ++ '/' :: name ++ ['/'])) create
      = some ⟨Factory.http,
          ['h', 't', 't', 'p', 's', ':', '/', '/']
            ++ authFragment (get_username cfg osUser) cfg.password
            ++ dmnBitbucket ++ '/' :: (owner ++ '/' :: name ++ ['/']), create⟩ := by
  have h1 : strip '/' (owner ++ '/' :: name ++ ['/']) = owner ++ '/' :: name :=
    strip_canon owner name ho ho2 hn hn2
  have hmem : '/' ∈ owner ++ '/' :: name := List.mem_append_right _ (List.mem_cons_self _ _)
  have h2 : instancePath (get_username cfg osUser) (owner ++ '/' :: name ++ ['/'])
      = owner ++ '/' :: name := by
    simp only [instancePath, h1, if_pos hmem]
  have h3 : rstrip '/' (owner ++ '/' :: name) = owner ++ '/' :: name := by
    apply rstrip_eq_self
    obtain ⟨t, b, rfl⟩ : ∃ t b, name = t ++ [b] := by
      rcases List.eq_nil_or_concat' name with rfl | ⟨t, b, rfl⟩
      · exact absurd rfl hn
      · exact ⟨t, b, rfl⟩
    have hb : b ≠ '/' := fun hh => hn2 (hh ▸ List.mem_concat_self t b)
    rw [show owner ++ '/' :: (t ++ [b]) = (owner ++ '/' :: t) ++ [b] by simp,
      List.getLast?_concat]
    simp [hb]
  simp only [bbrepo_instance, splitFirst_append ':' scheme _ hs, h2, h3]
  rw [render_https]

/-- Witness for C9: re-resolving the canonical o/r/ path reproduces the
same o/r/ path segment. -/
theorem claim9_idempotent_path_witness :
    bbrepo_instance ⟨Factory.http, https_tmpl⟩ ⟨some ['u'], none, none⟩ []
        (['b', 'b'] ++ ':' :: (['o'] ++ '/' :: ['r'] ++ ['/'])) false
      = some ⟨Factory.http,
          ['h', 't', 't', 'p', 's', ':', '/', '/']
            ++ authFragment (get_username ⟨some ['u'], none, none⟩ [])
                (⟨some ['u'], none, none⟩ : Config).password
            ++ dmnBitbucket ++ '/' :: (['o'] ++ '/' :: ['r'] ++ ['/']), false⟩ :=
  claim9_idempotent_path ⟨some ['u'], none, none⟩ [] ['b', 'b'] ['o'] ['r'] false
    (by decide) (by decide) (by decide) (by decide) (by decide)

/-- Claim C10: the registered bb+http handler is identical to the bb+https
handler (same factory, same https template), so every call through bb+http
composes exactly the same final URL and performs the same factory call as
through bb+https; and no registered handler ever produces a URL with the
plaintext http scheme. -/
theorem claim10_http_https_equiv :
    bbschemes kBBhttp = bbschemes kBBhttps
    ∧ (∀ cfg osUser url create h1 h2, bbschemes kBBhttp = some h1 →
        bbschemes kBBhttps = some h2 →
        bbrepo_instance h1 cfg osUser url create = bbrepo_instance h2 cfg osUser url create)
    ∧ (∀ key h cfg osUser url create c, bbschemes key = some h →
        bbrepo_instance h cfg osUser url create = some c →
        ¬ ['h', 't', 't', 'p', ':', '/', '/'] <+: c.url) := by
  have hreg : bbschemes kBBhttp = bbschemes kBBhttps := by decide
  refine ⟨hreg, ?_, ?_⟩
  · intro cfg osUser url create h1 h2 e1 e2
    rw [hreg] at e1
    obtain rfl : h1 = h2 := Option.some.inj (e1.symm.trans e2)
    rfl
  · intro key h cfg osUser url create c hk hc
    simp only [bbschemes] at hk
    split_ifs at hk
    · obtain rfl := Option.some.inj hk
      obtain ⟨p, hp⟩ := instance_some_url _ _ _ _ _ _ _ hc
      rw [hp, render_https]
      exact no_http_of_https _
    · obtain rfl := Option.some.inj hk
      obtain ⟨p, hp⟩ := instance_some_url _ _ _ _ _ _ _ hc
      rw [hp, render_https]
      exact no_http_of_https _
    · obtain rfl := Option.some.inj hk
      obtain ⟨p, hp⟩ := instance_some_url _ _ _ _ _ _ _ hc
      rw [hp, render_ssh]
      exact no_http_of_ssh _

/-- Witness for C10: the bb+ssh handler, on a concrete call, produces a
URL that does not start with the plaintext http scheme. -/
theorem claim10_http_https_equiv_witness :
    ¬ ['h', 't', 't', 'p', ':', '/', '/'] <+:
      (⟨Factory.ssh,
          ['s', 's', 'h', ':', '/', '/', 'h', 'g', '@'] ++ dmnBitbucket ++ ['/', 'u', '/'],
          false⟩ : RepoCall).url :=
  claim10_http_https_equiv.2.2 kBBssh ⟨Factory.ssh, ssh_tmpl⟩ ⟨none, none, none⟩ ['u']
    [':'] false _ (by decide) (by decide)

end Hgbb
